import Mathlib

/-!
Verification of the interval core of `freecal` (`src/main.go`).

Modelling conventions:

* A Go `time.Time` instant is modelled as an `Int`, measured in minutes since
  local midnight of the day under consideration (the program derives all the
  instants that reach the interval core from one local calendar day).
  `time.Time.After`/`Before` become `<` on `Int`, `Sub` becomes subtraction,
  and `Hour()`/`Minute()` become Euclidean `(t % 1440) / 60` and
  `(t % 1440) % 60`, which agree with Go's local wall-clock fields under this
  coordinate choice.
* A `time.Duration` threshold (`minDur`) is likewise an `Int` in minutes.
* Go slices become `List`, `nil` results become `[]`.
* `sort.Slice(in, func(i,j) { in[i].start.Before(in[j].start) })` is modelled
  by a stable sort (`List.insertionSort`) with respect to `start ≤ start`,
  a deterministic refinement of the unspecified tie order of `sort.Slice`.
-/

namespace FreeCal

/-- The `interval` struct of `main.go`.  Go's field `end` is a reserved word
in Lean, so it is named `stop` here. -/
@[ext]
structure Interval where
  start : Int
  stop : Int
deriving DecidableEq

/-- Well-formedness of an interval: a meaningful (nonempty) half-open range. -/
def Interval.wf (i : Interval) : Prop := i.start < i.stop

instance (i : Interval) : Decidable i.wf :=
  inferInstanceAs (Decidable (i.start < i.stop))

/-- Embedding of `overlaps` (`main.go` lines 78–91): take the larger start and
the smaller end; report the intersection exactly when it is nonempty, and the
zero interval (Go's `interval{}`) otherwise. -/
def overlaps (a b : Interval) : Interval × Bool :=
  let s := if a.start < b.start then b.start else a.start
  let e := if b.stop < a.stop then b.stop else a.stop
  if s < e then (⟨s, e⟩, true) else (⟨0, 0⟩, false)

/-- The comparison used by `sort.Slice` in `mergeIntervals`, relaxed to its
reflexive closure so that a stable sort can realise it. -/
def startLE (a b : Interval) : Prop := a.start ≤ b.start

instance : DecidableRel startLE :=
  fun a b => inferInstanceAs (Decidable (a.start ≤ b.start))

instance : IsTotal Interval startLE := ⟨fun a b => le_total a.start b.start⟩

instance : IsTrans Interval startLE := ⟨fun _ _ _ h h2 => le_trans h h2⟩

/-- Model of the in-place `sort.Slice` call in `mergeIntervals`. -/
def sortIntervals (l : List Interval) : List Interval := l.insertionSort startLE

/-- The loop of `mergeIntervals` (`main.go` lines 99–106).  The Go code keeps
the accumulated output and mutates its last element; here the current last
element is the explicit first argument and the already-final prefix is emitted
through the list constructor. -/
def mergeFold (last : Interval) : List Interval → List Interval
  | [] => [last]
  | cur :: rest =>
    if last.stop < cur.start then last :: mergeFold cur rest
    else if last.stop < cur.stop then mergeFold ⟨last.start, cur.stop⟩ rest
    else mergeFold last rest

/-- Embedding of `mergeIntervals` (`main.go` lines 93–108): empty input gives
`nil`; otherwise sort by start and coalesce with the scan above. -/
def mergeIntervals (l : List Interval) : List Interval :=
  match sortIntervals l with
  | [] => []
  | x :: xs => mergeFold x xs

/-- The first loop of `findFreeSlots` (`main.go` lines 401–406): clip every
busy interval against the day window, keeping only the found intersections. -/
def clipBusy (win : Interval) (busyAll : List Interval) : List Interval :=
  busyAll.filterMap fun ev =>
    match overlaps ev win with
    | (i, true) => some i
    | (_, false) => none

/-- The cursor sweep of `findFreeSlots` (`main.go` lines 409–422): walk the
merged busy intervals, emitting the gap before each one that starts after the
cursor, then the tail gap up to `dayEnd`. -/
def sweepGaps (dayEnd : Int) : Int → List Interval → List Interval
  | cursor, [] => if cursor < dayEnd then [⟨cursor, dayEnd⟩] else []
  | cursor, b :: rest =>
    let tail := sweepGaps dayEnd (if cursor < b.stop then b.stop else cursor) rest
    if cursor < b.start then ⟨cursor, b.start⟩ :: tail else tail

/-- The free intervals computed by `findFreeSlots` before the minimum-duration
filter: clip, merge, then sweep. -/
def freeGaps (dayStart dayEnd : Int) (busyAll : List Interval) : List Interval :=
  sweepGaps dayEnd dayStart (mergeIntervals (clipBusy ⟨dayStart, dayEnd⟩ busyAll))

/-- Minutes within the day of an instant, matching Go's local wall clock under
the minutes-since-midnight coordinate. -/
def clockMin (t : Int) : Nat := (t % 1440).toNat

/-- Go's `t.Hour()` under the modelling convention. -/
def hourOf (t : Int) : Nat := clockMin t / 60

/-- Go's `t.Minute()` under the modelling convention. -/
def minuteOf (t : Int) : Nat := clockMin t % 60

/-- Go's `%02d` formatting of a (two-digit) nonnegative number. -/
def pad2 (n : Nat) : String := if n < 10 then "0" ++ toString n else toString n

/-- The `fmt.Sprintf("%02d:%02d~%02d:%02d", ...)` call of `findFreeSlots`. -/
def fmtSlot (f : Interval) : String :=
  pad2 (hourOf f.start) ++ ":" ++ pad2 (minuteOf f.start) ++ "~" ++
    pad2 (hourOf f.stop) ++ ":" ++ pad2 (minuteOf f.stop)

/-- Embedding of `findFreeSlots` (`main.go` lines 397–433): the free gaps of
the day window, filtered to those lasting at least `minDur`, formatted. -/
def findFreeSlots (dayStart dayEnd : Int) (busyAll : List Interval)
    (minDur : Int) : List String :=
  ((freeGaps dayStart dayEnd busyAll).filter
      fun f => decide (minDur ≤ f.stop - f.start)).map fmtSlot

/-- One of the two time fields of a calendar event (`calendar.EventDateTime`).
The RFC3339 / date string parsing that `parseEventTime` delegates to Go's
`time.Parse` is abstracted: `none` models an empty string, `some none` a
non-empty string that fails to parse, and `some (some t)` a string parsing to
the instant `t` (already converted to the target location). -/
structure EventTime where
  dateTime : Option (Option Int)
  date : Option (Option Int)
deriving DecidableEq

/-- The fields of a `calendar.Event` consumed by `eventsToIntervals`
(`main.go` lines 375–395).  `start`/`stop` model the possibly-nil pointers
`e.Start`/`e.End`. -/
structure CalEvent where
  status : String
  transparency : String
  start : Option EventTime
  stop : Option EventTime
deriving DecidableEq

/-- Model of `strings.EqualFold`: case-insensitive equality.  Go folds by
Unicode simple case folding; for the ASCII constants this function is applied
to, folding each character to lower case is the same map. -/
def eqFold (a b : String) : Bool :=
  decide (a.data.map Char.toLower = b.data.map Char.toLower)

/-- Embedding of `parseEventTime` (`main.go` lines 348–373): prefer the timed
branch when both `DateTime` strings are non-empty (a parse failure there does
not fall through), otherwise the all-day branch when both `Date` strings are
non-empty; `none` models `ok = false`. -/
def parseEventTime (e : CalEvent) : Option (Int × Int) :=
  match e.start, e.stop with
  | some st, some et =>
    match st.dateTime, et.dateTime with
    | some sdt, some edt =>
      match sdt, edt with
      | some s, some en => some (s, en)
      | _, _ => none
    | _, _ =>
      match st.date, et.date with
      | some sd, some ed =>
        match sd, ed with
        | some s, some en => some (s, en)
        | _, _ => none
      | _, _ => none
  | _, _ => none

/-- Embedding of `eventsToIntervals` (`main.go` lines 375–395): skip events
whose status case-folds to `"canceled"` or whose transparency case-folds to
`"transparent"`, then keep each remaining event whose time span parses and is
strictly positive. -/
def eventsToIntervals (events : List CalEvent) : List Interval :=
  events.filterMap fun e =>
    if eqFold e.status "canceled" then none
    else if eqFold e.transparency "transparent" then none
    else
      match parseEventTime e with
      | some (s, en) => if s < en then some ⟨s, en⟩ else none
      | none => none

/-! ### Helper lemmas about `overlaps` -/

lemma ite_lt_eq_max (x y : Int) : (if x < y then y else x) = max x y := by
  simp only [max_def]
  split <;> split <;> omega

lemma ite_lt_eq_min (x y : Int) : (if y < x then y else x) = min x y := by
  simp only [min_def]
  split <;> split <;> omega

/-- Characterisation of `overlaps` through `max` and `min`. -/
lemma overlaps_eq (a b : Interval) :
    overlaps a b =
      if max a.start b.start < min a.stop b.stop then
        (⟨max a.start b.start, min a.stop b.stop⟩, true)
      else (⟨0, 0⟩, false) := by
  unfold overlaps
  rw [ite_lt_eq_max, ite_lt_eq_min]

lemma overlaps_snd_eq_false (a b : Interval)
    (h : min a.stop b.stop ≤ max a.start b.start) : (overlaps a b).2 = false := by
  rw [overlaps_eq, if_neg (by omega)]

lemma overlaps_snd_false_iff (a b : Interval) :
    (overlaps a b).2 = false ↔ min a.stop b.stop ≤ max a.start b.start := by
  rw [overlaps_eq]
  split <;> simp <;> omega

/-! ### Claim C4: the input/output contract of `overlaps` -/

/-- C4.  For every pair of intervals `a`, `b`, `overlaps` computes
`s = max(a.start, b.start)` and `e = min(a.end, b.end)` and returns
`(Interval{s,e}, true)` exactly when `e` is strictly after `s`, and the
zero interval with `false` otherwise.  (Purity is inherent: `overlaps` is a
Lean function of its two arguments.) -/
theorem overlaps_max_min_contract (a b : Interval) :
    overlaps a b =
      if max a.start b.start < min a.stop b.stop then
        (⟨max a.start b.start, min a.stop b.stop⟩, true)
      else (⟨0, 0⟩, false) :=
  overlaps_eq a b

/-! ### Claim C7: symmetry of `overlaps` -/

/-- C7.  `overlaps` is symmetric: `overlaps a b` returns the same
interval/found pair as `overlaps b a`. -/
theorem overlaps_comm (a b : Interval) : overlaps a b = overlaps b a := by
  rw [overlaps_eq a b, overlaps_eq b a, max_comm a.start b.start,
    min_comm a.stop b.stop]

/-! ### Claim C1: the end-to-end example -/

/-- C1.  With work window `09:00–17:00` (minutes 540–1020), busy intervals
`10:00–10:30` and `10:45–11:15`, and a 30-minute minimum, `findFreeSlots`
returns exactly `["09:00~10:00", "11:15~17:00"]`: the 15-minute gap
`10:30–10:45` is dropped. -/
theorem findFreeSlots_end_to_end_example :
    findFreeSlots 540 1020 [⟨600, 630⟩, ⟨645, 675⟩] 30 =
      ["09:00~10:00", "11:15~17:00"] := by decide

/-! ### Claim C2: adjacency asymmetry between `overlaps` and `mergeIntervals` -/

/-- C2.  For well-formed touching intervals (`a.end = b.start`), `overlaps`
reports not-found, while `mergeIntervals` coalesces the pair into the single
interval from `a.start` to `b.end`. -/
theorem adjacent_overlaps_false_merge_coalesces (a b : Interval)
    (ha : a.start < a.stop) (hb : b.start < b.stop) (hab : a.stop = b.start) :
    (overlaps a b).2 = false ∧ mergeIntervals [a, b] = [⟨a.start, b.stop⟩] := by
  constructor
  · refine overlaps_snd_eq_false a b ?_
    have h1 := min_le_left a.stop b.stop
    have h2 := le_max_right a.start b.start
    omega
  · have hab' : startLE a b := by unfold startLE; omega
    have hsort : sortIntervals [a, b] = [a, b] := by
      simp [sortIntervals, List.insertionSort, List.orderedInsert, hab']
    have h2 : mergeIntervals [a, b] = mergeFold a [b] := by
      unfold mergeIntervals
      rw [hsort]
    rw [h2]
    simp only [mergeFold]
    rw [if_neg (by omega), if_pos (by omega)]

/-! ### Claim C9: a degenerate day window yields no slots -/

lemma clipBusy_eq_nil_of_degenerate (ds de : Int) (busyAll : List Interval)
    (h : de < ds) : clipBusy ⟨ds, de⟩ busyAll = [] := by
  unfold clipBusy
  rw [List.filterMap_eq_nil_iff]
  intro ev _
  have hfalse : (overlaps ev ⟨ds, de⟩).2 = false := by
    refine overlaps_snd_eq_false ev ⟨ds, de⟩ ?_
    show min ev.stop de ≤ max ev.start ds
    have h1 := min_le_right ev.stop de
    have h2 := le_max_right ev.start ds
    omega
  rcases hov : overlaps ev ⟨ds, de⟩ with ⟨i, found⟩
  rw [hov] at hfalse
  simp at hfalse
  subst hfalse
  rfl

/-- C9.  When the day window is degenerate (`dayEnd` before `dayStart`),
`findFreeSlots` does not fail: for every busy list and minimum duration it
returns the empty list of slots. -/
theorem findFreeSlots_degenerate_window (ds de : Int) (busyAll : List Interval)
    (minDur : Int) (h : de < ds) : findFreeSlots ds de busyAll minDur = [] := by
  unfold findFreeSlots freeGaps
  rw [clipBusy_eq_nil_of_degenerate ds de busyAll h]
  have hm : mergeIntervals ([] : List Interval) = [] := rfl
  rw [hm]
  unfold sweepGaps
  rw [if_neg (by omega)]
  rfl

/-- Witness for C9 at a concrete degenerate window. -/
theorem findFreeSlots_degenerate_window_witness :
    (50 : Int) < 100 ∧ findFreeSlots 100 50 [⟨0, 200⟩] 10 = [] :=
  ⟨by decide, findFreeSlots_degenerate_window 100 50 [⟨0, 200⟩] 10 (by decide)⟩

/-! ### Claim C8: the cancelled/transparent event filter

The Google Calendar API reports a cancelled event with
`status = "cancelled"` (the spelling used by the API reference, by the
sibling revision of this very file, and by the spec), but the filter in
`eventsToIntervals` compares against `"canceled"`.  Since
`strings.EqualFold("cancelled", "canceled")` is `false`, a cancelled event
with a valid timed span is NOT excluded: it is converted into a busy
interval.  The following evaluation exhibits this divergence. -/

/-- A cancelled one-hour timed event, exactly as the calendar API delivers
its status field. -/
def cancelledTimedEvent : CalEvent :=
  { status := "cancelled", transparency := "",
    start := some { dateTime := some (some 0), date := none },
    stop := some { dateTime := some (some 60), date := none } }

/-- C8 (failing input).  An event whose status marks it as cancelled
(status `"cancelled"`, as produced by the calendar service) is NOT excluded
by `eventsToIntervals`: it yields the busy interval `[0, 60)`, contradicting
the claim that every cancelled event is excluded. -/
theorem eventsToIntervals_keeps_cancelled_event :
    eventsToIntervals [cancelledTimedEvent] = [⟨0, 60⟩] := by decide

/-! ### Structural lemmas about `mergeFold` -/

lemma mergeFold_head (l : List Interval) :
    ∀ last : Interval, ∃ e tl,
      mergeFold last l = ⟨last.start, e⟩ :: tl ∧ last.stop ≤ e := by
  induction l with
  | nil => exact fun last => ⟨last.stop, [], rfl, le_refl _⟩
  | cons cur rest ih =>
    intro last
    simp only [mergeFold]
    split_ifs with h1 h2
    · exact ⟨last.stop, mergeFold cur rest, rfl, le_refl _⟩
    · obtain ⟨e, tl, heq, hle⟩ := ih ⟨last.start, cur.stop⟩
      have hle' : cur.stop ≤ e := hle
      exact ⟨e, tl, heq, by omega⟩
    · exact ih last

lemma mergeFold_chain' (l : List Interval) :
    ∀ last, List.Chain' (fun a b => a.stop < b.start) (mergeFold last l) := by
  induction l with
  | nil => intro last; simp [mergeFold]
  | cons cur rest ih =>
    intro last
    simp only [mergeFold]
    split_ifs with h1 h2
    · obtain ⟨e, tl, heq, _⟩ := mergeFold_head rest cur
      have hchain := ih cur
      rw [heq] at hchain ⊢
      exact List.chain'_cons.mpr ⟨h1, hchain⟩
    · exact ih ⟨last.start, cur.stop⟩
    · exact ih last

lemma mergeFold_wf (l : List Interval) :
    ∀ last : Interval, last.wf → (∀ i ∈ l, i.wf) →
      ∀ j ∈ mergeFold last l, j.wf := by
  induction l with
  | nil =>
    intro last hlast _ j hj
    simp only [mergeFold, List.mem_singleton] at hj
    exact hj ▸ hlast
  | cons cur rest ih =>
    intro last hlast hl j hj
    simp only [mergeFold] at hj
    split_ifs at hj with h1 h2
    · rcases List.mem_cons.mp hj with rfl | hj'
      · exact hlast
      · exact ih cur (hl cur (List.mem_cons_self cur rest))
          (fun i hi => hl i (List.mem_cons_of_mem cur hi)) j hj'
    · refine ih ⟨last.start, cur.stop⟩ ?_
        (fun i hi => hl i (List.mem_cons_of_mem cur hi)) j hj
      show last.start < cur.stop
      have hlast' : last.start < last.stop := hlast
      omega
    · exact ih last hlast (fun i hi => hl i (List.mem_cons_of_mem cur hi)) j hj

lemma mergeFold_bounds (lo hi : Int) (l : List Interval) :
    ∀ last : Interval, lo ≤ last.start → last.stop ≤ hi →
      (∀ i ∈ l, lo ≤ i.start ∧ i.stop ≤ hi) →
      ∀ j ∈ mergeFold last l, lo ≤ j.start ∧ j.stop ≤ hi := by
  induction l with
  | nil =>
    intro last hlo hhi _ j hj
    simp only [mergeFold, List.mem_singleton] at hj
    exact hj ▸ ⟨hlo, hhi⟩
  | cons cur rest ih =>
    intro last hlo hhi hl j hj
    simp only [mergeFold] at hj
    split_ifs at hj with h1 h2
    · rcases List.mem_cons.mp hj with rfl | hj'
      · exact ⟨hlo, hhi⟩
      · exact ih cur (hl cur (List.mem_cons_self cur rest)).1
          (hl cur (List.mem_cons_self cur rest)).2
          (fun i hi => hl i (List.mem_cons_of_mem cur hi)) j hj'
    · exact ih ⟨last.start, cur.stop⟩ hlo
        (hl cur (List.mem_cons_self cur rest)).2
        (fun i hi => hl i (List.mem_cons_of_mem cur hi)) j hj
    · exact ih last hlo hhi (fun i hi => hl i (List.mem_cons_of_mem cur hi)) j hj

lemma mergeFold_start_ge (l : List Interval) :
    ∀ last : Interval, (∀ i ∈ l, last.start ≤ i.start) →
      List.Pairwise startLE l →
      ∀ j ∈ mergeFold last l, last.start ≤ j.start := by
  induction l with
  | nil =>
    intro last _ _ j hj
    simp only [mergeFold, List.mem_singleton] at hj
    exact hj ▸ le_refl _
  | cons cur rest ih =>
    intro last hge hp j hj
    have hcur : last.start ≤ cur.start := hge cur (List.mem_cons_self cur rest)
    have hpt := List.pairwise_cons.mp hp
    simp only [mergeFold] at hj
    split_ifs at hj with h1 h2
    · rcases List.mem_cons.mp hj with rfl | hj'
      · exact le_refl _
      · exact le_trans hcur (ih cur (fun i hi => hpt.1 i hi) hpt.2 j hj')
    · exact ih ⟨last.start, cur.stop⟩
        (fun i hi => hge i (List.mem_cons_of_mem cur hi)) hpt.2 j hj
    · exact ih last (fun i hi => hge i (List.mem_cons_of_mem cur hi)) hpt.2 j hj

lemma mergeFold_sorted (l : List Interval) :
    ∀ last : Interval, (∀ i ∈ l, last.start ≤ i.start) →
      List.Pairwise startLE l →
      List.Pairwise startLE (mergeFold last l) := by
  induction l with
  | nil => intro last _ _; simp [mergeFold]
  | cons cur rest ih =>
    intro last hge hp
    have hcur : last.start ≤ cur.start := hge cur (List.mem_cons_self cur rest)
    have hpt := List.pairwise_cons.mp hp
    simp only [mergeFold]
    split_ifs with h1 h2
    · refine List.pairwise_cons.mpr ⟨?_, ih cur (fun i hi => hpt.1 i hi) hpt.2⟩
      intro j hj
      have := mergeFold_start_ge rest cur (fun i hi => hpt.1 i hi) hpt.2 j hj
      show last.start ≤ j.start
      omega
    · exact ih ⟨last.start, cur.stop⟩
        (fun i hi => hge i (List.mem_cons_of_mem cur hi)) hpt.2
    · exact ih last (fun i hi => hge i (List.mem_cons_of_mem cur hi)) hpt.2

lemma mergeFold_eq_of_pairwise (l : List Interval) :
    ∀ last : Interval,
      List.Pairwise (fun a b => a.stop < b.start) (last :: l) →
      mergeFold last l = last :: l := by
  induction l with
  | nil => intro last _; rfl
  | cons cur rest ih =>
    intro last hp
    have hpt := List.pairwise_cons.mp hp
    have hsep : last.stop < cur.start := hpt.1 cur (List.mem_cons_self cur rest)
    simp only [mergeFold]
    rw [if_pos hsep, ih cur hpt.2]

lemma mergeFold_covers (l : List Interval) :
    ∀ last : Interval, (∀ i ∈ l, last.start ≤ i.start) →
      List.Pairwise startLE l → ∀ t : Int,
      ((last.start ≤ t ∧ t < last.stop) ∨ ∃ i ∈ l, i.start ≤ t ∧ t < i.stop) →
      ∃ j ∈ mergeFold last l, j.start ≤ t ∧ t < j.stop := by
  induction l with
  | nil =>
    intro last _ _ t ht
    rcases ht with ht | ⟨i, hi, _⟩
    · exact ⟨last, by simp [mergeFold], ht⟩
    · exact absurd hi (List.not_mem_nil i)
  | cons cur rest ih =>
    intro last hge hp t ht
    have hcur : last.start ≤ cur.start := hge cur (List.mem_cons_self cur rest)
    have hpt := List.pairwise_cons.mp hp
    simp only [mergeFold]
    split_ifs with h1 h2
    · rcases ht with ht | ⟨i, hi, hti⟩
      · exact ⟨last, List.mem_cons_self _ _, ht⟩
      · rcases List.mem_cons.mp hi with hic | hi'
        · obtain ⟨j, hj, htj⟩ := ih cur (fun i hi => hpt.1 i hi) hpt.2 t
            (Or.inl (hic ▸ hti))
          exact ⟨j, List.mem_cons_of_mem last hj, htj⟩
        · obtain ⟨j, hj, htj⟩ := ih cur (fun i hi => hpt.1 i hi) hpt.2 t
            (Or.inr ⟨i, hi', hti⟩)
          exact ⟨j, List.mem_cons_of_mem last hj, htj⟩
    · refine ih ⟨last.start, cur.stop⟩
        (fun i hi => hge i (List.mem_cons_of_mem cur hi)) hpt.2 t ?_
      rcases ht with ht | ⟨i, hi, hti⟩
      · exact Or.inl ⟨ht.1, by have := ht.2; show t < cur.stop; omega⟩
      · rcases List.mem_cons.mp hi with hic | hi'
        · have hti' : cur.start ≤ t ∧ t < cur.stop := hic ▸ hti
          exact Or.inl ⟨by show last.start ≤ t; have := hti'.1; omega,
            by show t < cur.stop; exact hti'.2⟩
        · exact Or.inr ⟨i, hi', hti⟩
    · refine ih last (fun i hi => hge i (List.mem_cons_of_mem cur hi)) hpt.2 t ?_
      rcases ht with ht | ⟨i, hi, hti⟩
      · exact Or.inl ht
      · rcases List.mem_cons.mp hi with hic | hi'
        · have hti' : cur.start ≤ t ∧ t < cur.stop := hic ▸ hti
          have hi1 := hti'.1
          have hi2 := hti'.2
          exact Or.inl ⟨by omega, by omega⟩
        · exact Or.inr ⟨i, hi', hti⟩

/-! ### Lemmas about `mergeIntervals` -/

lemma sortIntervals_sorted (l : List Interval) :
    List.Pairwise startLE (sortIntervals l) :=
  List.sorted_insertionSort startLE l

lemma mem_sortIntervals {l : List Interval} {i : Interval} :
    i ∈ sortIntervals l ↔ i ∈ l :=
  List.mem_insertionSort startLE

lemma merge_sorted (l : List Interval) :
    List.Pairwise startLE (mergeIntervals l) := by
  unfold mergeIntervals
  rcases hs : sortIntervals l with _ | ⟨x, xs⟩
  · simp
  · have hsorted := sortIntervals_sorted l
    rw [hs] at hsorted
    have hps := List.pairwise_cons.mp hsorted
    exact mergeFold_sorted xs x (fun i hi => hps.1 i hi) hps.2

lemma merge_chain' (l : List Interval) :
    List.Chain' (fun a b => a.stop < b.start) (mergeIntervals l) := by
  unfold mergeIntervals
  rcases sortIntervals l with _ | ⟨x, xs⟩
  · simp
  · exact mergeFold_chain' xs x

lemma pairwise_sep_of_sorted_chain :
    ∀ l : List Interval, List.Pairwise startLE l →
      List.Chain' (fun a b => a.stop < b.start) l →
      List.Pairwise (fun a b => a.stop < b.start) l
  | [], _, _ => List.Pairwise.nil
  | [x], _, _ => by simp
  | x :: y :: ys, hp, hc => by
    rw [List.pairwise_cons] at hp ⊢
    rw [List.chain'_cons] at hc
    refine ⟨?_, pairwise_sep_of_sorted_chain (y :: ys) hp.2 hc.2⟩
    intro z hz
    rcases List.mem_cons.mp hz with hzy | hz'
    · exact hzy ▸ hc.1
    · have hyz : startLE y z := (List.pairwise_cons.mp hp.2).1 z hz'
      have hxy : x.stop < y.start := hc.1
      have hyz' : y.start ≤ z.start := hyz
      show x.stop < z.start
      omega

lemma merge_pairwise_sep (l : List Interval) :
    List.Pairwise (fun a b => a.stop < b.start) (mergeIntervals l) :=
  pairwise_sep_of_sorted_chain _ (merge_sorted l) (merge_chain' l)

lemma merge_wf (l : List Interval) (hwf : ∀ i ∈ l, i.wf) :
    ∀ j ∈ mergeIntervals l, j.wf := by
  unfold mergeIntervals
  rcases hs : sortIntervals l with _ | ⟨x, xs⟩
  · simp
  · have hmem : ∀ i ∈ x :: xs, i.wf := by
      intro i hi
      exact hwf i (mem_sortIntervals.mp (hs ▸ hi))
    exact mergeFold_wf xs x (hmem x (List.mem_cons_self x xs))
      (fun i hi => hmem i (List.mem_cons_of_mem x hi))

lemma merge_bounds (lo hi : Int) (l : List Interval)
    (hb : ∀ i ∈ l, lo ≤ i.start ∧ i.stop ≤ hi) :
    ∀ j ∈ mergeIntervals l, lo ≤ j.start ∧ j.stop ≤ hi := by
  unfold mergeIntervals
  rcases hs : sortIntervals l with _ | ⟨x, xs⟩
  · simp
  · have hmem : ∀ i ∈ x :: xs, lo ≤ i.start ∧ i.stop ≤ hi := by
      intro i hmi
      exact hb i (mem_sortIntervals.mp (hs ▸ hmi))
    exact mergeFold_bounds lo hi xs x (hmem x (List.mem_cons_self x xs)).1
      (hmem x (List.mem_cons_self x xs)).2
      (fun i hmi => hmem i (List.mem_cons_of_mem x hmi))

lemma merge_covers (l : List Interval) {i : Interval} (hi : i ∈ l) (t : Int)
    (h1 : i.start ≤ t) (h2 : t < i.stop) :
    ∃ j ∈ mergeIntervals l, j.start ≤ t ∧ t < j.stop := by
  unfold mergeIntervals
  have hi' : i ∈ sortIntervals l := mem_sortIntervals.mpr hi
  rcases hs : sortIntervals l with _ | ⟨x, xs⟩
  · rw [hs] at hi'
    exact absurd hi' (List.not_mem_nil i)
  · rw [hs] at hi'
    have hsorted := sortIntervals_sorted l
    rw [hs] at hsorted
    have hps := List.pairwise_cons.mp hsorted
    rcases List.mem_cons.mp hi' with hix | hixs
    · exact mergeFold_covers xs x (fun a ha => hps.1 a ha) hps.2 t
        (Or.inl ⟨hix ▸ h1, hix ▸ h2⟩)
    · exact mergeFold_covers xs x (fun a ha => hps.1 a ha) hps.2 t
        (Or.inr ⟨i, hixs, h1, h2⟩)

/-! ### Claim C3: shape of the merge output -/

/-- C3.  On any sequence of well-formed intervals, in any order, the output
of `mergeIntervals` is ascending by start and pairwise separated (each
interval's end strictly before the next interval's start); and the empty
input yields the empty result rather than an error. -/
theorem mergeIntervals_output_shape (xs : List Interval)
    (hwf : ∀ i ∈ xs, i.start < i.stop) :
    (List.Pairwise (fun a b => a.start < b.start) (mergeIntervals xs) ∧
      List.Pairwise (fun a b => a.stop < b.start) (mergeIntervals xs)) ∧
    mergeIntervals ([] : List Interval) = [] := by
  have hsep := merge_pairwise_sep xs
  have hjwf := merge_wf xs hwf
  refine ⟨⟨?_, hsep⟩, rfl⟩
  refine hsep.imp_of_mem ?_
  intro a b ha _ hab
  have hawf : a.start < a.stop := hjwf a ha
  omega

/-- Witness for C3 at a concrete unsorted input. -/
theorem mergeIntervals_output_shape_witness :
    (∀ i ∈ [(⟨5, 6⟩ : Interval), ⟨0, 2⟩, ⟨1, 3⟩], i.start < i.stop) ∧
    ((List.Pairwise (fun a b => a.start < b.start)
        (mergeIntervals [(⟨5, 6⟩ : Interval), ⟨0, 2⟩, ⟨1, 3⟩]) ∧
      List.Pairwise (fun a b => a.stop < b.start)
        (mergeIntervals [(⟨5, 6⟩ : Interval), ⟨0, 2⟩, ⟨1, 3⟩])) ∧
    mergeIntervals ([] : List Interval) = []) :=
  ⟨by decide, mergeIntervals_output_shape [⟨5, 6⟩, ⟨0, 2⟩, ⟨1, 3⟩] (by decide)⟩

/-! ### Claim C6: idempotence of `mergeIntervals` -/

/-- C6.  `mergeIntervals` is idempotent on every sequence of intervals. -/
theorem mergeIntervals_idempotent (xs : List Interval) :
    mergeIntervals (mergeIntervals xs) = mergeIntervals xs := by
  rcases h : mergeIntervals xs with _ | ⟨y, ys⟩
  · rfl
  · have hp : List.Pairwise startLE (y :: ys) := h ▸ merge_sorted xs
    have hsep : List.Pairwise (fun a b => a.stop < b.start) (y :: ys) :=
      h ▸ merge_pairwise_sep xs
    have hsort : sortIntervals (y :: ys) = y :: ys :=
      List.Sorted.insertionSort_eq hp
    unfold mergeIntervals
    rw [hsort]
    exact mergeFold_eq_of_pairwise ys y hsep

/-! ### Lemmas about the cursor sweep -/

lemma sweepGaps_nil (de c : Int) :
    sweepGaps de c [] = if c < de then [⟨c, de⟩] else [] := rfl

lemma sweepGaps_cons (de c : Int) (b : Interval) (rest : List Interval) :
    sweepGaps de c (b :: rest) =
      if c < b.start then
        ⟨c, b.start⟩ :: sweepGaps de (if c < b.stop then b.stop else c) rest
      else sweepGaps de (if c < b.stop then b.stop else c) rest := rfl

lemma sweep_start_ge (de : Int) (bs : List Interval) :
    ∀ c : Int, ∀ f ∈ sweepGaps de c bs, c ≤ f.start := by
  induction bs with
  | nil =>
    intro c f hf
    rw [sweepGaps_nil] at hf
    split_ifs at hf
    · rcases List.mem_singleton.mp hf with rfl
      exact le_refl _
    · exact absurd hf (List.not_mem_nil f)
  | cons b rest ih =>
    intro c f hf
    rw [sweepGaps_cons] at hf
    set c' := if c < b.stop then b.stop else c with hc'
    have hcc' : c ≤ c' := by rw [hc']; split_ifs <;> omega
    split_ifs at hf with h1
    · rcases List.mem_cons.mp hf with rfl | hf'
      · exact le_refl _
      · have := ih c' f hf'
        omega
    · have := ih c' f hf
      omega

lemma sweep_wf_bounds (de : Int) (bs : List Interval) :
    ∀ c : Int, (∀ b ∈ bs, b.start ≤ de) →
      ∀ f ∈ sweepGaps de c bs, f.start < f.stop ∧ f.stop ≤ de := by
  induction bs with
  | nil =>
    intro c _ f hf
    rw [sweepGaps_nil] at hf
    split_ifs at hf with h1
    · rcases List.mem_singleton.mp hf with rfl
      exact ⟨h1, le_refl _⟩
    · exact absurd hf (List.not_mem_nil f)
  | cons b rest ih =>
    intro c hb f hf
    rw [sweepGaps_cons] at hf
    set c' := if c < b.stop then b.stop else c with hc'
    split_ifs at hf with h1
    · rcases List.mem_cons.mp hf with rfl | hf'
      · exact ⟨h1, hb b (List.mem_cons_self b rest)⟩
      · exact ih c' (fun a ha => hb a (List.mem_cons_of_mem b ha)) f hf'
    · exact ih c' (fun a ha => hb a (List.mem_cons_of_mem b ha)) f hf

lemma sweep_pairwise_sep (de : Int) (bs : List Interval) :
    ∀ c : Int, (∀ b ∈ bs, b.start < b.stop) →
      List.Pairwise (fun a b => a.stop < b.start) (sweepGaps de c bs) := by
  induction bs with
  | nil =>
    intro c _
    rw [sweepGaps_nil]
    split_ifs <;> simp
  | cons b rest ih =>
    intro c hb
    have hbwf : b.start < b.stop := hb b (List.mem_cons_self b rest)
    rw [sweepGaps_cons]
    set c' := if c < b.stop then b.stop else c with hc'
    have hbc' : b.stop ≤ c' := by rw [hc']; split_ifs <;> omega
    have htail := ih c' (fun a ha => hb a (List.mem_cons_of_mem b ha))
    split_ifs with h1
    · refine List.pairwise_cons.mpr ⟨?_, htail⟩
      intro g hg
      have hge := sweep_start_ge de rest c' g hg
      show b.start < g.start
      omega
    · exact htail

lemma sweep_avoid (de : Int) (bs : List Interval) :
    ∀ c : Int, (∀ b ∈ bs, b.start < b.stop) →
      List.Pairwise (fun a b => a.stop < b.start) bs →
      ∀ f ∈ sweepGaps de c bs, ∀ b ∈ bs,
        min f.stop b.stop ≤ max f.start b.start := by
  induction bs with
  | nil =>
    intro c _ _ f _ b hb
    exact absurd hb (List.not_mem_nil b)
  | cons b0 rest ih =>
    intro c hwf hp f hf b hb
    have hb0wf : b0.start < b0.stop := hwf b0 (List.mem_cons_self b0 rest)
    have hpt := List.pairwise_cons.mp hp
    rw [sweepGaps_cons] at hf
    set c' := if c < b0.stop then b0.stop else c with hc'
    have hbc' : b0.stop ≤ c' := by rw [hc']; split_ifs <;> omega
    split_ifs at hf with h1
    · rcases List.mem_cons.mp hf with rfl | hf'
      · rcases List.mem_cons.mp hb with rfl | hb'
        · show min b.start b.stop ≤ max c b.start
          have hm := min_le_left b.start b.stop
          have hM := le_max_right c b.start
          omega
        · show min b0.start b.stop ≤ max c b.start
          have hsep := hpt.1 b hb'
          have hm := min_le_left b0.start b.stop
          have hM := le_max_right c b.start
          omega
      · rcases List.mem_cons.mp hb with rfl | hb'
        · have hge := sweep_start_ge de rest c' f hf'
          have hm := min_le_right f.stop b.stop
          have hM := le_max_left f.start b.start
          omega
        · exact ih c' (fun a ha => hwf a (List.mem_cons_of_mem b0 ha)) hpt.2
            f hf' b hb'
    · rcases List.mem_cons.mp hb with rfl | hb'
      · have hge := sweep_start_ge de rest c' f hf
        have hm := min_le_right f.stop b.stop
        have hM := le_max_left f.start b.start
        omega
      · exact ih c' (fun a ha => hwf a (List.mem_cons_of_mem b0 ha)) hpt.2
          f hf b hb'
/-! ### Lemmas about `clipBusy` and `freeGaps` -/

lemma clipBusy_mem {win : Interval} {l : List Interval} {i : Interval}
    (hi : i ∈ clipBusy win l) :
    win.start ≤ i.start ∧ i.stop ≤ win.stop ∧ i.start < i.stop := by
  unfold clipBusy at hi
  rw [List.mem_filterMap] at hi
  obtain ⟨ev, _, hev⟩ := hi
  rw [overlaps_eq] at hev
  by_cases hcond : max ev.start win.start < min ev.stop win.stop
  · rw [if_pos hcond] at hev
    have hev' : (⟨max ev.start win.start, min ev.stop win.stop⟩ : Interval) = i := by
      simpa using hev
    rw [← hev']
    exact ⟨le_max_right _ _, min_le_right _ _, hcond⟩
  · rw [if_neg hcond] at hev
    simp at hev

lemma clipBusy_covers (win : Interval) {l : List Interval} {ev : Interval}
    (hev : ev ∈ l) (t : Int) (h1 : ev.start ≤ t) (h2 : t < ev.stop)
    (h3 : win.start ≤ t) (h4 : t < win.stop) :
    ∃ cv ∈ clipBusy win l, cv.start ≤ t ∧ t < cv.stop := by
  have hA : max ev.start win.start ≤ t := max_le h1 h3
  have hB : t < min ev.stop win.stop := lt_min h2 h4
  refine ⟨⟨max ev.start win.start, min ev.stop win.stop⟩, ?_, hA, hB⟩
  unfold clipBusy
  rw [List.mem_filterMap]
  exact ⟨ev, hev, by rw [overlaps_eq, if_pos (by omega)]⟩

lemma freeGaps_props (ds de : Int) (busyAll : List Interval) :
    ∀ f ∈ freeGaps ds de busyAll,
      ds ≤ f.start ∧ f.stop ≤ de ∧ f.start < f.stop := by
  intro f hf
  unfold freeGaps at hf
  have hclip : ∀ i ∈ clipBusy ⟨ds, de⟩ busyAll,
      ds ≤ i.start ∧ i.stop ≤ de ∧ i.start < i.stop :=
    fun i hi => clipBusy_mem hi
  have hwfB := merge_wf (clipBusy ⟨ds, de⟩ busyAll) (fun i hi => (hclip i hi).2.2)
  have hboundsB := merge_bounds ds de (clipBusy ⟨ds, de⟩ busyAll)
    (fun i hi => ⟨(hclip i hi).1, (hclip i hi).2.1⟩)
  have hstartB : ∀ b ∈ mergeIntervals (clipBusy ⟨ds, de⟩ busyAll), b.start ≤ de := by
    intro b hb
    have h1 : b.start < b.stop := hwfB b hb
    have h2 := (hboundsB b hb).2
    omega
  have h1 := sweep_start_ge de _ ds f hf
  have h2 := sweep_wf_bounds de _ ds hstartB f hf
  exact ⟨h1, h2.2, h2.1⟩

lemma freeGaps_sep (ds de : Int) (busyAll : List Interval) :
    List.Pairwise (fun a b => a.stop < b.start) (freeGaps ds de busyAll) := by
  unfold freeGaps
  exact sweep_pairwise_sep de _ ds
    (fun b hb => merge_wf _ (fun i hi => (clipBusy_mem hi).2.2) b hb)

lemma freeGaps_ascending (ds de : Int) (busyAll : List Interval) :
    List.Pairwise (fun a b => a.start < b.start) (freeGaps ds de busyAll) := by
  refine (freeGaps_sep ds de busyAll).imp_of_mem ?_
  intro a b ha _ hab
  have := (freeGaps_props ds de busyAll a ha).2.2
  omega

lemma freeGaps_avoid (ds de : Int) (busyAll : List Interval) :
    ∀ f ∈ freeGaps ds de busyAll, ∀ ev ∈ busyAll,
      (overlaps f ev).2 = false := by
  intro f hf ev hev
  rw [overlaps_snd_false_iff]
  by_contra hlt
  push_neg at hlt
  have htf : f.start ≤ max f.start ev.start := le_max_left _ _
  have hte : ev.start ≤ max f.start ev.start := le_max_right _ _
  have htf2 : max f.start ev.start < f.stop :=
    lt_of_lt_of_le hlt (min_le_left _ _)
  have hte2 : max f.start ev.start < ev.stop :=
    lt_of_lt_of_le hlt (min_le_right _ _)
  have hprops := freeGaps_props ds de busyAll f hf
  have h3 : ds ≤ max f.start ev.start := le_trans hprops.1 htf
  have h4 : max f.start ev.start < de := lt_of_lt_of_le htf2 hprops.2.1
  obtain ⟨cv, hcv, hcvt⟩ :=
    clipBusy_covers ⟨ds, de⟩ hev (max f.start ev.start) hte hte2 h3 h4
  obtain ⟨j, hj, hjt⟩ := merge_covers _ hcv (max f.start ev.start) hcvt.1 hcvt.2
  unfold freeGaps at hf
  have hwfB := merge_wf (clipBusy ⟨ds, de⟩ busyAll)
    (fun i hi => (clipBusy_mem hi).2.2)
  have hsepB := merge_pairwise_sep (clipBusy ⟨ds, de⟩ busyAll)
  have havoid := sweep_avoid de _ ds hwfB hsepB f hf j hj
  have hA : max f.start j.start ≤ max f.start ev.start := max_le htf hjt.1
  have hB2 : max f.start ev.start < min f.stop j.stop := lt_min htf2 hjt.2
  omega

/-! ### Claim C10: invariants of the emitted free intervals -/

/-- C10.  For a well-formed day window, every free interval produced by the
sweep in `findFreeSlots` (before formatting) lies within the window, has
strictly positive length and intersects no input busy interval; and the
emitted free intervals are ascending and pairwise disjoint. -/
theorem freeGaps_invariants (ds de : Int) (busyAll : List Interval)
    (_h : ds < de) :
    (∀ f ∈ freeGaps ds de busyAll,
        ds ≤ f.start ∧ f.stop ≤ de ∧ f.start < f.stop ∧
        ∀ b ∈ busyAll, (overlaps f b).2 = false) ∧
    List.Pairwise (fun a b => a.start < b.start) (freeGaps ds de busyAll) ∧
    List.Pairwise (fun a b => a.stop ≤ b.start) (freeGaps ds de busyAll) := by
  have hprops := freeGaps_props ds de busyAll
  refine ⟨fun f hf => ⟨(hprops f hf).1, (hprops f hf).2.1, (hprops f hf).2.2,
      freeGaps_avoid ds de busyAll f hf⟩,
    freeGaps_ascending ds de busyAll,
    (freeGaps_sep ds de busyAll).imp (fun h => le_of_lt h)⟩

/-- Witness for C10 at a concrete window and busy list. -/
theorem freeGaps_invariants_witness :
    (540 : Int) < 1020 ∧
    ((∀ f ∈ freeGaps 540 1020 [(⟨600, 630⟩ : Interval)],
        (540 : Int) ≤ f.start ∧ f.stop ≤ 1020 ∧ f.start < f.stop ∧
        ∀ b ∈ [(⟨600, 630⟩ : Interval)], (overlaps f b).2 = false) ∧
      List.Pairwise (fun a b => a.start < b.start)
        (freeGaps 540 1020 [(⟨600, 630⟩ : Interval)]) ∧
      List.Pairwise (fun a b => a.stop ≤ b.start)
        (freeGaps 540 1020 [(⟨600, 630⟩ : Interval)])) :=
  ⟨by decide, freeGaps_invariants 540 1020 [⟨600, 630⟩] (by decide)⟩
/-! ### Injectivity of the slot formatting on in-day instants -/

lemma str_data_append (s t : String) : (s ++ t).data = s.data ++ t.data := rfl

set_option maxRecDepth 10000 in
set_option maxHeartbeats 1000000 in
lemma pad2_data_length : ∀ n : Fin 100, ((pad2 n.val).data).length = 2 := by
  decide

set_option maxRecDepth 10000 in
set_option maxHeartbeats 1000000 in
lemma pad2_inj : ∀ a b : Fin 100, pad2 a.val = pad2 b.val → a = b := by decide

lemma pad2_data_length_of_lt {n : Nat} (h : n < 100) :
    ((pad2 n).data).length = 2 :=
  pad2_data_length ⟨n, h⟩

lemma pad2_inj_of_lt {a b : Nat} (ha : a < 100) (hb : b < 100)
    (h : pad2 a = pad2 b) : a = b :=
  congrArg Fin.val (pad2_inj ⟨a, ha⟩ ⟨b, hb⟩ h)

lemma clockMin_lt (t : Int) : clockMin t < 1440 := by unfold clockMin; omega

lemma hourOf_lt (t : Int) : hourOf t < 100 := by
  have := clockMin_lt t
  unfold hourOf
  omega

lemma minuteOf_lt (t : Int) : minuteOf t < 100 := by
  have := clockMin_lt t
  unfold minuteOf
  omega

lemma pad2_pair_inj {h1 m1 h2 m2 : Nat} (hh1 : h1 < 100) (hm1 : m1 < 100)
    (hh2 : h2 < 100) (hm2 : m2 < 100) {rest1 rest2 : List Char}
    (heq : (pad2 h1).data ++ ':' :: ((pad2 m1).data ++ rest1) =
      (pad2 h2).data ++ ':' :: ((pad2 m2).data ++ rest2)) :
    h1 = h2 ∧ m1 = m2 := by
  have hlh : ((pad2 h1).data).length = ((pad2 h2).data).length := by
    rw [pad2_data_length_of_lt hh1, pad2_data_length_of_lt hh2]
  obtain ⟨e1, e2⟩ := List.append_inj heq hlh
  injection e2 with _ e2'
  have hlm : ((pad2 m1).data).length = ((pad2 m2).data).length := by
    rw [pad2_data_length_of_lt hm1, pad2_data_length_of_lt hm2]
  obtain ⟨e3, _⟩ := List.append_inj e2' hlm
  exact ⟨pad2_inj_of_lt hh1 hh2 (String.ext e1),
    pad2_inj_of_lt hm1 hm2 (String.ext e3)⟩

lemma fmtSlot_data (f : Interval) :
    (fmtSlot f).data =
      (pad2 (hourOf f.start)).data ++ ':' :: ((pad2 (minuteOf f.start)).data ++
        '~' :: ((pad2 (hourOf f.stop)).data ++ ':' ::
          (pad2 (minuteOf f.stop)).data)) := by
  have hc : (":" : String).data = [':'] := rfl
  have ht : ("~" : String).data = ['~'] := rfl
  simp only [fmtSlot, str_data_append, hc, ht, List.append_assoc,
    List.cons_append, List.nil_append]

lemma fmtSlot_start_inj {f g : Interval} (hf0 : 0 ≤ f.start)
    (hf1 : f.start < 1440) (hg0 : 0 ≤ g.start) (hg1 : g.start < 1440)
    (heq : fmtSlot f = fmtSlot g) : f.start = g.start := by
  have hd := congrArg String.data heq
  rw [fmtSlot_data, fmtSlot_data] at hd
  obtain ⟨eh, em⟩ := pad2_pair_inj (hourOf_lt f.start) (minuteOf_lt f.start)
    (hourOf_lt g.start) (minuteOf_lt g.start) hd
  have hcm : clockMin f.start = clockMin g.start := by
    have c1 := clockMin_lt f.start
    have c2 := clockMin_lt g.start
    unfold hourOf at eh
    unfold minuteOf at em
    omega
  unfold clockMin at hcm
  omega

lemma mem_eq_of_start_eq :
    ∀ l : List Interval, List.Pairwise (fun a b => a.start < b.start) l →
      ∀ f ∈ l, ∀ g ∈ l, f.start = g.start → f = g
  | [], _, f, hf, _, _, _ => absurd hf (List.not_mem_nil f)
  | x :: xs, hp, f, hf, g, hg, heq => by
    have hpt := List.pairwise_cons.mp hp
    rcases List.mem_cons.mp hf with hfx | hf'
    · rcases List.mem_cons.mp hg with hgx | hg'
      · rw [hfx, hgx]
      · have h1 := hpt.1 g hg'
        rw [hfx] at heq
        exact absurd heq (by omega)
    · rcases List.mem_cons.mp hg with hgx | hg'
      · have h1 := hpt.1 f hf'
        rw [hgx] at heq
        exact absurd heq (by omega)
      · exact mem_eq_of_start_eq xs hpt.2 f hf' g hg' heq

/-! ### Claim C5: the minimum-duration filter is inclusive -/

/-- C5.  For a day window inside one calendar day, a free gap of the sweep is
formatted into the output of `findFreeSlots` if and only if its duration
`end - start` is at least `minDur`: the boundary is inclusive, so a gap of
exactly `minDur` is kept and any shorter gap is dropped. -/
theorem findFreeSlots_min_duration_inclusive (ds de : Int)
    (busyAll : List Interval) (minDur : Int) (f : Interval)
    (h0 : 0 ≤ ds) (h1 : de ≤ 1440) (hf : f ∈ freeGaps ds de busyAll) :
    fmtSlot f ∈ findFreeSlots ds de busyAll minDur ↔
      minDur ≤ f.stop - f.start := by
  unfold findFreeSlots
  rw [List.mem_map]
  constructor
  · rintro ⟨g, hg, hfg⟩
    rw [List.mem_filter] at hg
    have hgdur : minDur ≤ g.stop - g.start := of_decide_eq_true hg.2
    have hpf := freeGaps_props ds de busyAll f hf
    have hpg := freeGaps_props ds de busyAll g hg.1
    have hstart : g.start = f.start := by
      refine fmtSlot_start_inj ?_ ?_ ?_ ?_ hfg
      · omega
      · omega
      · omega
      · omega
    have hgf : g = f :=
      mem_eq_of_start_eq _ (freeGaps_ascending ds de busyAll) g hg.1 f hf hstart
    rw [← hgf]
    exact hgdur
  · intro hdur
    exact ⟨f, List.mem_filter.mpr ⟨hf, decide_eq_true hdur⟩, rfl⟩

/-- Witness for C5 at a concrete window, busy list and gap. -/
theorem findFreeSlots_min_duration_inclusive_witness :
    (0 : Int) ≤ 540 ∧ (1020 : Int) ≤ 1440 ∧
    (⟨540, 600⟩ : Interval) ∈ freeGaps 540 1020 [(⟨600, 630⟩ : Interval)] ∧
    (fmtSlot ⟨540, 600⟩ ∈ findFreeSlots 540 1020 [(⟨600, 630⟩ : Interval)] 60 ↔
      (60 : Int) ≤ (600 : Int) - 540) :=
  ⟨by decide, by decide, by decide,
    findFreeSlots_min_duration_inclusive 540 1020 [⟨600, 630⟩] 60 ⟨540, 600⟩
      (by decide) (by decide) (by decide)⟩
/-- Witness for C2 at the spec's own adjacency example. -/
theorem adjacent_overlaps_false_merge_coalesces_witness :
    ((0 : Int) < 10 ∧ (10 : Int) < 20 ∧
      ((⟨0, 10⟩ : Interval)).stop = ((⟨10, 20⟩ : Interval)).start) ∧
    ((overlaps ⟨0, 10⟩ ⟨10, 20⟩).2 = false ∧
      mergeIntervals [(⟨0, 10⟩ : Interval), ⟨10, 20⟩] = [⟨0, 20⟩]) :=
  ⟨⟨by decide, by decide, rfl⟩,
    adjacent_overlaps_false_merge_coalesces ⟨0, 10⟩ ⟨10, 20⟩ (by decide)
      (by decide) rfl⟩

end FreeCal
